import Mathlib

/-!
Verification of `src/dynamic_programming/word_break.rs`.

The Rust function `word_break(s: &str, word_dict: &[&str])` builds a `Trie`
from the dictionary and then runs a memoized recursive `search` over the
*byte* positions of `s`: for `end in start+1..=s.len()` it slices
`s[start..end]` and looks the slice up in the trie.  Rust string slicing by
byte range panics when an index is not a UTF-8 character boundary, so the
embedding works at the byte level: a string is a `List Char`, positions are
byte offsets (`Char.utf8Size` bytes per character), and slicing is partial.

The computation is modelled with an explicit fuel argument (the recursion of
`search` strictly increases `start`, so `utf8Len s + 1` fuel always
suffices); running out of fuel is kept distinct (`Err.outOfFuel`) from a
Rust panic (`Err.panic`) so that every `Err.panic` result corresponds to a
real panic of the source.  The memo table is threaded explicitly, and the
list of memo indices written during a call is returned as ghost
instrumentation (it does not influence the result) so that the write-once
lifecycle of the table can be stated.
-/

namespace RustAlgorithms

/-- Abnormal outcomes of the embedded computation: `panic` models a Rust
panic (string slicing at a non-character-boundary byte index); `outOfFuel`
is an artifact of the fuel-based embedding and is proved unreachable for
the fuel supplied by `word_break`. -/
inductive Err where
  | panic
  | outOfFuel
deriving DecidableEq

/-- The memo table of `search`: `vec![None; s.len() + 1]`, indexed by byte
position, modelled as a total function. -/
abbrev Memo := Nat → Option Bool

/-- Result of one embedded `search` call: the returned value (or abnormal
outcome), the memo table after the call, and — as ghost instrumentation —
the list of memo indices written during the call. -/
structure SRes where
  res : Except Err Bool
  memo : Memo
  writes : List Nat

/-- `s.len()` in Rust: the UTF-8 byte length of the string. -/
def utf8Len : List Char → Nat
  | [] => 0
  | c :: cs => c.utf8Size + utf8Len cs

/-- Drop `n` bytes from the front of a character list; `none` when `n` is
not a character boundary (Rust: `byte index is not a char boundary`
panic). -/
def dropBytes : List Char → Nat → Option (List Char)
  | s, 0 => some s
  | [], _ + 1 => none
  | c :: s, n + 1 =>
    if c.utf8Size ≤ n + 1 then dropBytes s (n + 1 - c.utf8Size) else none

/-- Take `n` bytes from the front of a character list; `none` when `n` is
not a character boundary or past the end. -/
def takeBytes : List Char → Nat → Option (List Char)
  | _, 0 => some []
  | [], _ + 1 => none
  | c :: s, n + 1 =>
    if c.utf8Size ≤ n + 1 then (takeBytes s (n + 1 - c.utf8Size)).map (c :: ·)
    else none

/-- Rust `&s[a..b]`: the characters between byte offsets `a` and `b`;
`none` models the slicing panic at a non-boundary index. -/
def byteSlice (s : List Char) (a b : Nat) : Option (List Char) :=
  match dropBytes s a with
  | none => none
  | some t => takeBytes t (b - a)

/-- First-match association-list lookup (used by the trie model). -/
def lookupKey {α β : Type} [DecidableEq α] (key : List α) :
    List (List α × β) → Option β
  | [] => none
  | (k, v) :: rest => if k = key then some v else lookupKey key rest

/-- Modelled from the spec: the repository's `Trie` lives in
`crate::data_structures` (`src/data_structures/trie.rs`), whose source is
not included under `src/`; only its caller `word_break` is.  Spec §4.1
specifies it behaviourally: `insert(sequence, value)` attaches `value` to
the exact key, overwriting any previous value at that exact key, and
`get(sequence)` returns the value only if the full sequence was inserted as
a complete key (an internal node with no value, or a missing edge, gives
"absent").  That contract is exactly an exact-key finite map, which is how
it is modelled here: `insert` prepends an entry and `get` takes the first
(most recent) entry whose key matches the whole query sequence. -/
structure Trie (α : Type) (β : Type) where
  entries : List (List α × β)

/-- Modelled from the spec: `Trie::new()`, an empty trie holds no keys. -/
def Trie.new {α β : Type} : Trie α β := ⟨[]⟩

/-- Modelled from the spec: `insert` sets the value at exactly `key`,
overwriting any previous value at that exact key. -/
def Trie.insert {α β : Type} (t : Trie α β) (key : List α) (v : β) :
    Trie α β := ⟨(key, v) :: t.entries⟩

/-- Modelled from the spec: `get` returns the value attached to exactly
`key`, or `none` when `key` was never inserted as a complete key. -/
def Trie.get {α β : Type} [DecidableEq α] (t : Trie α β) (key : List α) :
    Option β :=
  lookupKey key t.entries

/-- The trie that `word_break` builds: every dictionary word inserted with
value `true` (`for &word in word_dict { trie.insert(word.chars(), true) }`). -/
def buildTrie (word_dict : List (List Char)) : Trie Char Bool :=
  word_dict.foldl (fun t w => t.insert w true) Trie.new

/-- The `for end in start + 1..=s.len()` loop body of `search`: for each
candidate end offset, slice `s[start..end]` (propagating the slicing panic),
test trie membership, and on a hit run the recursive call `rec`; a `true`
recursive result short-circuits, a `false` one moves to the next candidate,
an abnormal one propagates.  Returns `ok false` when no candidate
succeeds. -/
def searchLoop (t : Trie Char Bool) (s : List Char) (start : Nat)
    (rec : Nat → Memo → SRes) : List Nat → Memo → SRes
  | [], memo => ⟨.ok false, memo, []⟩
  | e :: ends, memo =>
    match byteSlice s start e with
    | none => ⟨.error .panic, memo, []⟩
    | some w =>
      if (t.get w).isSome then
        match rec e memo with
        | ⟨.ok true, memo', ws⟩ => ⟨.ok true, memo', ws⟩
        | ⟨.ok false, memo', ws⟩ =>
          match searchLoop t s start rec ends memo' with
          | ⟨r, memo'', ws'⟩ => ⟨r, memo'', ws ++ ws'⟩
        | ⟨.error err, memo', ws⟩ => ⟨.error err, memo', ws⟩
      else searchLoop t s start rec ends memo

/-- The recursive `search` of `word_break.rs`: base case at the end of the
string, then the memo lookup, then the candidate-end loop; on resolution
the memo slot at `start` is written (`memo[start] = Some(..)`), recorded in
the ghost `writes` list.  `fuel` only bounds the recursion depth of the
embedding. -/
def search (t : Trie Char Bool) (s : List Char) :
    Nat → Nat → Memo → SRes
  | 0, start, memo =>
    if start = utf8Len s then ⟨.ok true, memo, []⟩
    else
      match memo start with
      | some res => ⟨.ok res, memo, []⟩
      | none => ⟨.error .outOfFuel, memo, []⟩
  | fuel + 1, start, memo =>
    if start = utf8Len s then ⟨.ok true, memo, []⟩
    else
      match memo start with
      | some res => ⟨.ok res, memo, []⟩
      | none =>
        match searchLoop t s start (fun e m => search t s fuel e m)
            (List.range' (start + 1) (utf8Len s - start)) memo with
        | ⟨.ok true, memo', ws⟩ =>
          ⟨.ok true, fun i => if i = start then some true else memo' i,
            start :: ws⟩
        | ⟨.ok false, memo', ws⟩ =>
          ⟨.ok false, fun i => if i = start then some false else memo' i,
            start :: ws⟩
        | ⟨.error err, memo', ws⟩ => ⟨.error err, memo', ws⟩

/-- The full run of `word_break(s, word_dict)`: build the trie from the
dictionary, allocate a fresh all-`None` memo table, and search from byte
position 0. -/
def wordBreakRun (s : List Char) (word_dict : List (List Char)) : SRes :=
  search (buildTrie word_dict) s (utf8Len s + 1) 0 (fun _ => none)

/-- `word_break(s, word_dict)` of `word_break.rs`: the boolean it returns,
or the abnormal outcome. -/
def word_break (s : List Char) (word_dict : List (List Char)) :
    Except Err Bool :=
  (wordBreakRun s word_dict).res

/-- The candidate-end loop of the naive unmemoized re-implementation of
`search`: identical to `searchLoop` with the memo (and the ghost writes)
removed. -/
def naiveLoop (t : Trie Char Bool) (s : List Char) (start : Nat)
    (rec : Nat → Except Err Bool) : List Nat → Except Err Bool
  | [] => .ok false
  | e :: ends =>
    match byteSlice s start e with
    | none => .error .panic
    | some w =>
      if (t.get w).isSome then
        match rec e with
        | .ok true => .ok true
        | .ok false => naiveLoop t s start rec ends
        | .error err => .error err
      else naiveLoop t s start rec ends

/-- The naive unmemoized re-implementation of `search`: the same recursion
with the memo table omitted and everything else unchanged. -/
def searchNaive (t : Trie Char Bool) (s : List Char) :
    Nat → Nat → Except Err Bool
  | 0, start =>
    if start = utf8Len s then .ok true else .error .outOfFuel
  | fuel + 1, start =>
    if start = utf8Len s then .ok true
    else
      naiveLoop t s start (fun e => searchNaive t s fuel e)
        (List.range' (start + 1) (utf8Len s - start))

/-- The naive unmemoized re-implementation of `word_break`. -/
def word_break_naive (s : List Char) (word_dict : List (List Char)) :
    Except Err Bool :=
  searchNaive (buildTrie word_dict) s (utf8Len s + 1) 0

/-- A string is segmentable over a dictionary: it splits into a sequence of
(necessarily non-empty) dictionary words.  `Seg.nil` makes the empty string
segmentable by the empty sequence. -/
inductive Seg (dict : List (List Char)) : List Char → Prop where
  | nil : Seg dict []
  | cons (w t : List Char) : w ∈ dict → w ≠ [] → Seg dict t →
      Seg dict (w ++ t)

/-- The spec's partition predicate, word for word: a non-overlapping,
order-preserving, contiguous sequence of ONE OR MORE substrings, each equal
to some dictionary entry, covering every character of `s`. -/
def SegOnePlus (dict : List (List Char)) (s : List Char) : Prop :=
  ∃ parts : List (List Char),
    parts ≠ [] ∧ (∀ p ∈ parts, p ∈ dict) ∧ parts.flatten = s

/-- The same partition predicate with zero parts allowed. -/
def SegZeroPlus (dict : List (List Char)) (s : List Char) : Prop :=
  ∃ parts : List (List Char), (∀ p ∈ parts, p ∈ dict) ∧ parts.flatten = s

/-- Every character of the string is a single UTF-8 byte: the regime in
which Rust byte indices coincide with character positions and slicing never
panics. -/
def allOneByte (s : List Char) : Prop := ∀ c ∈ s, c.utf8Size = 1

instance (s : List Char) : Decidable (allOneByte s) := by
  unfold allOneByte; exact List.decidableBAll _ s

/-! ### Basic facts about byte lengths, the trie model, and slicing -/

theorem utf8Len_eq_length {s : List Char} (h : allOneByte s) :
    utf8Len s = s.length := by
  induction s with
  | nil => rfl
  | cons c cs ih =>
    have hc : c.utf8Size = 1 := h c (List.mem_cons_self c cs)
    have hcs : allOneByte cs := fun x hx => h x (List.mem_cons_of_mem _ hx)
    rw [utf8Len, hc, ih hcs, List.length_cons]
    omega

theorem foldl_insert_get (D : List (List Char)) (t : Trie Char Bool)
    (k : List Char) :
    (D.foldl (fun t w => t.insert w true) t).get k
      = if k ∈ D then some true else t.get k := by
  induction D generalizing t with
  | nil => simp
  | cons d D ih =>
    rw [List.foldl_cons, ih]
    by_cases hk : k ∈ D
    · simp [hk]
    · by_cases hkd : k = d
      · subst hkd
        simp [hk, Trie.get, Trie.insert, lookupKey]
      · simp [hk, hkd, Trie.get, Trie.insert, lookupKey, Ne.symm hkd]

theorem buildTrie_get (D : List (List Char)) (k : List Char) :
    (buildTrie D).get k = if k ∈ D then some true else none := by
  rw [buildTrie, foldl_insert_get]
  rfl

theorem buildTrie_get_isSome (D : List (List Char)) (k : List Char) :
    ((buildTrie D).get k).isSome = true ↔ k ∈ D := by
  rw [buildTrie_get]
  by_cases hk : k ∈ D <;> simp [hk]

theorem dropBytes_oneByte {s : List Char} (h : allOneByte s) {k : Nat}
    (hk : k ≤ s.length) : dropBytes s k = some (s.drop k) := by
  induction s generalizing k with
  | nil =>
    have hk0 : k = 0 := by simpa using hk
    subst hk0
    rfl
  | cons c cs ih =>
    match k with
    | 0 => rfl
    | k + 1 =>
      have hc : c.utf8Size = 1 := h c (List.mem_cons_self c cs)
      have hcs : allOneByte cs := fun x hx => h x (List.mem_cons_of_mem _ hx)
      rw [dropBytes, hc]
      have hk' : k ≤ cs.length := by
        simp only [List.length_cons] at hk
        omega
      have h1 : k + 1 - 1 = k := by omega
      rw [if_pos (by omega), h1, ih hcs hk']
      rfl

theorem takeBytes_oneByte {s : List Char} (h : allOneByte s) {k : Nat}
    (hk : k ≤ s.length) : takeBytes s k = some (s.take k) := by
  induction s generalizing k with
  | nil =>
    have hk0 : k = 0 := by simpa using hk
    subst hk0
    rfl
  | cons c cs ih =>
    match k with
    | 0 => rfl
    | k + 1 =>
      have hc : c.utf8Size = 1 := h c (List.mem_cons_self c cs)
      have hcs : allOneByte cs := fun x hx => h x (List.mem_cons_of_mem _ hx)
      rw [takeBytes, hc]
      have hk' : k ≤ cs.length := by
        simp only [List.length_cons] at hk
        omega
      have h1 : k + 1 - 1 = k := by omega
      rw [if_pos (by omega), h1, ih hcs hk']
      rfl

theorem byteSlice_ascii {s : List Char} (h : allOneByte s) {a b : Nat}
    (hab : a ≤ b) (hb : b ≤ s.length) :
    byteSlice s a b = some ((s.drop a).take (b - a)) := by
  have hd : allOneByte (s.drop a) := fun x hx => h x (List.drop_subset a s hx)
  rw [byteSlice, dropBytes_oneByte h (by omega)]
  exact takeBytes_oneByte hd (by rw [List.length_drop]; omega)

theorem takeBytes_ne_nil {s : List Char} {k : Nat} {w : List Char}
    (hw : takeBytes s k = some w) (hk : 0 < k) : w ≠ [] := by
  match s, k with
  | _, 0 => omega
  | [], k + 1 => simp [takeBytes] at hw
  | c :: cs, k + 1 =>
    rw [takeBytes] at hw
    by_cases hc : c.utf8Size ≤ k + 1
    · rw [if_pos hc] at hw
      match htb : takeBytes cs (k + 1 - c.utf8Size) with
      | none => rw [htb] at hw; simp at hw
      | some w' =>
        rw [htb] at hw
        simp only [Option.map_some'] at hw
        cases hw
        simp
    · rw [if_neg hc] at hw
      simp at hw

theorem byteSlice_ne_nil {s : List Char} {a b : Nat} {w : List Char}
    (hw : byteSlice s a b = some w) (hab : a < b) : w ≠ [] := by
  rw [byteSlice] at hw
  match hd : dropBytes s a with
  | none => rw [hd] at hw; simp at hw
  | some t =>
    rw [hd] at hw
    exact takeBytes_ne_nil hw (by omega)

/-! ### The segmentation predicate -/

theorem seg_of_parts {D : List (List Char)} {parts : List (List Char)}
    (h : ∀ p ∈ parts, p ∈ D) : Seg D parts.flatten := by
  induction parts with
  | nil => exact Seg.nil
  | cons p parts ih =>
    rw [List.flatten_cons]
    by_cases hp : p = []
    · subst hp
      simpa using ih fun q hq => h q (List.mem_cons_of_mem _ hq)
    · exact Seg.cons p parts.flatten (h p (List.mem_cons_self p parts)) hp
        (ih fun q hq => h q (List.mem_cons_of_mem _ hq))

theorem seg_iff_zeroPlus {D : List (List Char)} {s : List Char} :
    Seg D s ↔ SegZeroPlus D s := by
  constructor
  · intro h
    induction h with
    | nil => exact ⟨[], by simp, rfl⟩
    | cons w t hw hne ht iht =>
      obtain ⟨parts, hmem, hflat⟩ := iht
      refine ⟨w :: parts, ?_, by simp [hflat]⟩
      intro p hp
      rcases List.mem_cons.mp hp with rfl | hp'
      · exact hw
      · exact hmem p hp'
  · rintro ⟨parts, hmem, rfl⟩
    exact seg_of_parts hmem

theorem seg_iff_onePlus {D : List (List Char)} {s : List Char} :
    Seg D s ↔ (s = [] ∨ SegOnePlus D s) := by
  constructor
  · intro h
    cases h with
    | nil => exact Or.inl rfl
    | cons w t hw hne ht =>
      right
      obtain ⟨parts, hmem, hflat⟩ := seg_iff_zeroPlus.mp ht
      refine ⟨w :: parts, by simp, ?_, by simp [hflat]⟩
      intro p hp
      rcases List.mem_cons.mp hp with rfl | hp'
      · exact hw
      · exact hmem p hp'
  · rintro (rfl | ⟨parts, _, hmem, rfl⟩)
    · exact Seg.nil
    · exact seg_of_parts hmem

theorem seg_inv {D : List (List Char)} {l : List Char} (h : Seg D l)
    (hne : l ≠ []) : ∃ w t, w ∈ D ∧ w ≠ [] ∧ Seg D t ∧ l = w ++ t := by
  cases h with
  | nil => exact absurd rfl hne
  | cons w t hw hwne ht => exact ⟨w, t, hw, hwne, ht, rfl⟩

theorem seg_monotone {D D' : List (List Char)} {s : List Char}
    (hsub : ∀ w ∈ D, w ∈ D') (h : Seg D s) : Seg D' s := by
  induction h with
  | nil => exact Seg.nil
  | cons w t hw hne _ iht => exact Seg.cons w t (hsub w hw) hne iht

theorem seg_drop_iff {D : List (List Char)} {s : List Char} {i : Nat}
    (hi : i < s.length) :
    Seg D (s.drop i) ↔
      ∃ e, i < e ∧ e ≤ s.length ∧ (s.drop i).take (e - i) ∈ D ∧
        Seg D (s.drop e) := by
  constructor
  · intro h
    have hne : s.drop i ≠ [] := by
      intro hnil
      have := congrArg List.length hnil
      simp only [List.length_drop, List.length_nil] at this
      omega
    obtain ⟨w, t, hw, hwne, ht, hdec⟩ := seg_inv h hne
    have hwlen : 0 < w.length := by
      rcases Nat.eq_zero_or_pos w.length with h0 | h0
      · exact absurd (List.length_eq_zero.mp h0) hwne
      · exact h0
    have hlen : s.length - i = w.length + t.length := by
      have := congrArg List.length hdec
      simpa [List.length_drop, List.length_append] using this
    refine ⟨i + w.length, by omega, by omega, ?_, ?_⟩
    · have he : i + w.length - i = w.length := by omega
      rw [he, hdec, List.take_left]
      exact hw
    · have : s.drop (i + w.length) = (s.drop i).drop w.length := by
        rw [List.drop_drop]
      rw [this, hdec, List.drop_left]
      exact ht
  · rintro ⟨e, hie, he, hw, hseg⟩
    have hde : (s.drop i).drop (e - i) = s.drop e := by
      rw [List.drop_drop]
      congr 1
      omega
    have hwne : (s.drop i).take (e - i) ≠ [] := by
      intro hnil
      have := congrArg List.length hnil
      simp only [List.length_take, List.length_drop, List.length_nil] at this
      omega
    have hcons := Seg.cons _ _ hw hwne (hde ▸ hseg)
    rwa [List.take_append_drop] at hcons

/-! ### Correctness of the memoized search on single-byte strings -/

/-- A memo table is sound when every resolved slot agrees with
segmentability of the corresponding suffix. -/
def SoundMemo (D : List (List Char)) (s : List Char) (m : Memo) : Prop :=
  ∀ i b, m i = some b → (b = true ↔ Seg D (s.drop i))

theorem mem_range'_iff {a n e : Nat} :
    e ∈ List.range' a n ↔ a ≤ e ∧ e < a + n := by
  rw [List.mem_range']
  constructor
  · rintro ⟨i, hi, rfl⟩
    omega
  · rintro ⟨ha, hn⟩
    exact ⟨e - a, by omega, by omega⟩

theorem searchLoop_ascii {D : List (List Char)} {s : List Char}
    (h1 : allOneByte s) (start : Nat)
    (rec : Nat → Memo → SRes)
    (hrec : ∀ e m, SoundMemo D s m → start < e → e ≤ s.length →
      ∃ b m' ws, rec e m = ⟨.ok b, m', ws⟩ ∧
        (b = true ↔ Seg D (s.drop e)) ∧ SoundMemo D s m') :
    ∀ l m, (∀ e ∈ l, start < e ∧ e ≤ s.length) → SoundMemo D s m →
      ∃ b m' ws,
        searchLoop (buildTrie D) s start rec l m = ⟨.ok b, m', ws⟩ ∧
        (b = true ↔ ∃ e ∈ l, (s.drop start).take (e - start) ∈ D ∧
          Seg D (s.drop e)) ∧
        SoundMemo D s m' := by
  intro l
  induction l with
  | nil =>
    intro m _ hm
    exact ⟨false, m, [], rfl, by simp, hm⟩
  | cons e l ih =>
    intro m hl hm
    have he : start < e ∧ e ≤ s.length := hl e (List.mem_cons_self e l)
    have hslice := byteSlice_ascii h1 (Nat.le_of_lt he.1) he.2
    by_cases hwD : (s.drop start).take (e - start) ∈ D
    · obtain ⟨b1, m1, ws1, hrec_eq, hb1, hm1⟩ := hrec e m hm he.1 he.2
      cases b1 with
      | true =>
        refine ⟨true, m1, ws1, ?_, ?_, hm1⟩
        · rw [searchLoop, hslice]
          simp only [buildTrie_get, hwD, if_pos, Option.isSome_some, if_true,
            hrec_eq]
        · simp only [true_iff]
          exact ⟨e, List.mem_cons_self e l, hwD, hb1.mp rfl⟩
      | false =>
        obtain ⟨b2, m2, ws2, hih, hb2, hm2⟩ := ih m1
          (fun x hx => hl x (List.mem_cons_of_mem _ hx)) hm1
        refine ⟨b2, m2, ws1 ++ ws2, ?_, ?_, hm2⟩
        · rw [searchLoop, hslice]
          simp only [buildTrie_get, hwD, if_pos, Option.isSome_some, if_true,
            hrec_eq, hih]
        · rw [hb2]
          constructor
          · rintro ⟨x, hx, hP⟩
            exact ⟨x, List.mem_cons_of_mem _ hx, hP⟩
          · rintro ⟨x, hx, hP⟩
            rcases List.mem_cons.mp hx with rfl | hx'
            · exact absurd (hb1.mpr hP.2) (by simp)
            · exact ⟨x, hx', hP⟩
    · obtain ⟨b2, m2, ws2, hih, hb2, hm2⟩ := ih m
        (fun x hx => hl x (List.mem_cons_of_mem _ hx)) hm
      refine ⟨b2, m2, ws2, ?_, ?_, hm2⟩
      · rw [searchLoop, hslice]
        simp only [buildTrie_get, hwD, if_neg, Option.isSome_none,
          Bool.false_eq_true, if_false, hih]
      · rw [hb2]
        constructor
        · rintro ⟨x, hx, hP⟩
          exact ⟨x, List.mem_cons_of_mem _ hx, hP⟩
        · rintro ⟨x, hx, hP⟩
          rcases List.mem_cons.mp hx with rfl | hx'
          · exact absurd hP.1 hwD
          · exact ⟨x, hx', hP⟩

theorem search_ascii {D : List (List Char)} {s : List Char}
    (h1 : allOneByte s) :
    ∀ fuel start m, s.length - start ≤ fuel → start ≤ s.length →
      SoundMemo D s m →
      ∃ b m' ws,
        search (buildTrie D) s fuel start m = ⟨.ok b, m', ws⟩ ∧
        (b = true ↔ Seg D (s.drop start)) ∧ SoundMemo D s m' := by
  have hlen := utf8Len_eq_length h1
  intro fuel
  induction fuel with
  | zero =>
    intro start m hfuel hstart hm
    have hbase : start = utf8Len s := by omega
    refine ⟨true, m, [], ?_, ?_, hm⟩
    · rw [search, if_pos hbase]
    · rw [show start = s.length by omega, List.drop_length]
      exact ⟨fun _ => Seg.nil, fun _ => rfl⟩
  | succ fuel ih =>
    intro start m hfuel hstart hm
    by_cases hbase : start = utf8Len s
    · refine ⟨true, m, [], ?_, ?_, hm⟩
      · rw [search, if_pos hbase]
      · rw [show start = s.length by omega, List.drop_length]
        exact ⟨fun _ => Seg.nil, fun _ => rfl⟩
    · have hlt : start < s.length := by omega
      cases hmemo : m start with
      | some res =>
        refine ⟨res, m, [], ?_, hm start res hmemo, hm⟩
        rw [search, if_neg hbase]
        simp only [hmemo]
      | none =>
        have hl : ∀ e ∈ List.range' (start + 1) (utf8Len s - start),
            start < e ∧ e ≤ s.length := by
          intro e hee
          have := mem_range'_iff.mp hee
          omega
        have hrec : ∀ e mm, SoundMemo D s mm → start < e → e ≤ s.length →
            ∃ b m' ws,
              search (buildTrie D) s fuel e mm = ⟨.ok b, m', ws⟩ ∧
              (b = true ↔ Seg D (s.drop e)) ∧ SoundMemo D s m' :=
          fun e mm hmm he1 he2 => ih e mm (by omega) (by omega) hmm
        obtain ⟨b, m', ws, hloop, hb, hm'⟩ :=
          searchLoop_ascii h1 start (fun e mm => search (buildTrie D) s fuel e mm)
            hrec (List.range' (start + 1) (utf8Len s - start)) m hl hm
        have hex : (∃ e ∈ List.range' (start + 1) (utf8Len s - start),
            (s.drop start).take (e - start) ∈ D ∧ Seg D (s.drop e)) ↔
            Seg D (s.drop start) := by
          rw [seg_drop_iff hlt]
          constructor
          · rintro ⟨e, hee, hP⟩
            have := mem_range'_iff.mp hee
            exact ⟨e, by omega, by omega, hP.1, hP.2⟩
          · rintro ⟨e, he1, he2, hP1, hP2⟩
            exact ⟨e, mem_range'_iff.mpr ⟨by omega, by omega⟩, hP1, hP2⟩
        cases b with
        | true =>
          have hseg : Seg D (s.drop start) := hex.mp (hb.mp rfl)
          refine ⟨true, fun i => if i = start then some true else m' i,
            start :: ws, ?_, ⟨fun _ => hseg, fun _ => rfl⟩, ?_⟩
          · rw [search, if_neg hbase]
            simp only [hmemo, hloop]
          · intro i bb hib
            have hib' : (if i = start then some true else m' i) = some bb := hib
            by_cases hi : i = start
            · subst hi
              rw [if_pos rfl] at hib'
              cases hib'
              exact ⟨fun _ => hseg, fun _ => rfl⟩
            · rw [if_neg hi] at hib'
              exact hm' i bb hib'
        | false =>
          have hnseg : ¬ Seg D (s.drop start) := by
            intro hseg
            have := hb.mpr (hex.mpr hseg)
            simp at this
          refine ⟨false, fun i => if i = start then some false else m' i,
            start :: ws, ?_, ⟨by simp, fun h => absurd h hnseg⟩, ?_⟩
          · rw [search, if_neg hbase]
            simp only [hmemo, hloop]
          · intro i bb hib
            have hib' : (if i = start then some false else m' i) = some bb := hib
            by_cases hi : i = start
            · subst hi
              rw [if_pos rfl] at hib'
              cases hib'
              exact ⟨by simp, fun h => absurd h hnseg⟩
            · rw [if_neg hi] at hib'
              exact hm' i bb hib'

theorem word_break_ascii {s : List Char} (D : List (List Char))
    (h1 : allOneByte s) :
    ∃ b, word_break s D = .ok b ∧ (b = true ↔ Seg D s) := by
  have hlen := utf8Len_eq_length h1
  have hsound : SoundMemo D s (fun _ => none) := fun i b hib => by
    exact absurd hib (by simp)
  obtain ⟨b, m', ws, heq, hb, _⟩ :=
    search_ascii h1 (utf8Len s + 1) 0 (fun _ => none) (by omega) (by omega)
      hsound
  refine ⟨b, ?_, by simpa using hb⟩
  rw [word_break, wordBreakRun, heq]

/-! ### Multi-byte characters make the search panic -/

theorem utf8Len_append (a b : List Char) :
    utf8Len (a ++ b) = utf8Len a + utf8Len b := by
  induction a with
  | nil => simp [utf8Len]
  | cons c a ih =>
    rw [List.cons_append, utf8Len, utf8Len, ih]
    omega

theorem exists_multibyte_split {s : List Char} (h : ¬ allOneByte s) :
    ∃ pre c rest, s = pre ++ c :: rest ∧ allOneByte pre ∧ 2 ≤ c.utf8Size := by
  induction s with
  | nil => exact absurd (fun c hc => absurd hc (List.not_mem_nil c)) h
  | cons c cs ih =>
    by_cases hc : c.utf8Size = 1
    · by_cases hcs : allOneByte cs
      · refine absurd (fun x hx => ?_) h
        rcases List.mem_cons.mp hx with rfl | hx'
        · exact hc
        · exact hcs x hx'
      · obtain ⟨pre, c', rest, hdec, hpre, hc'⟩ := ih hcs
        refine ⟨c :: pre, c', rest, by rw [hdec, List.cons_append], ?_, hc'⟩
        intro x hx
        rcases List.mem_cons.mp hx with rfl | hx'
        · exact hc
        · exact hpre x hx'
    · refine ⟨[], c, cs, rfl, fun x hx => absurd hx (List.not_mem_nil x), ?_⟩
      have := Char.utf8Size_pos c
      omega

theorem dropBytes_append_oneByte {p : List Char} (hp : allOneByte p) {k : Nat}
    (hk : k ≤ p.length) (z : List Char) :
    dropBytes (p ++ z) k = some (p.drop k ++ z) := by
  induction p generalizing k with
  | nil =>
    have hk0 : k = 0 := by simpa using hk
    subst hk0
    simp [dropBytes]
  | cons c cs ih =>
    match k with
    | 0 => simp [dropBytes]
    | k + 1 =>
      have hc : c.utf8Size = 1 := hp c (List.mem_cons_self c cs)
      have hcs : allOneByte cs := fun x hx => hp x (List.mem_cons_of_mem _ hx)
      rw [List.cons_append, dropBytes, hc]
      have hk' : k ≤ cs.length := by
        simp only [List.length_cons] at hk
        omega
      have h1 : k + 1 - 1 = k := by omega
      rw [if_pos (by omega), h1, ih hcs hk']
      rfl

theorem takeBytes_append_oneByte {p : List Char} (hp : allOneByte p) {k : Nat}
    (hk : k ≤ p.length) (z : List Char) :
    takeBytes (p ++ z) k = some (p.take k) := by
  induction p generalizing k with
  | nil =>
    have hk0 : k = 0 := by simpa using hk
    subst hk0
    simp [takeBytes]
  | cons c cs ih =>
    match k with
    | 0 => simp [takeBytes]
    | k + 1 =>
      have hc : c.utf8Size = 1 := hp c (List.mem_cons_self c cs)
      have hcs : allOneByte cs := fun x hx => hp x (List.mem_cons_of_mem _ hx)
      rw [List.cons_append, takeBytes, hc]
      have hk' : k ≤ cs.length := by
        simp only [List.length_cons] at hk
        omega
      have h1 : k + 1 - 1 = k := by omega
      rw [if_pos (by omega), h1, ih hcs hk']
      rfl

theorem takeBytes_multibyte {p : List Char} (hp : allOneByte p) {c : Char}
    (hc : 2 ≤ c.utf8Size) (z : List Char) :
    takeBytes (p ++ c :: z) (p.length + 1) = none := by
  induction p with
  | nil =>
    rw [List.nil_append, List.length_nil, takeBytes]
    rw [if_neg (by omega)]
  | cons x p ih =>
    have hx : x.utf8Size = 1 := hp x (List.mem_cons_self x p)
    have hps : allOneByte p := fun y hy => hp y (List.mem_cons_of_mem _ hy)
    rw [List.cons_append, List.length_cons, takeBytes, hx]
    have h1 : p.length + 1 + 1 - 1 = p.length + 1 := by omega
    rw [if_pos (by omega), h1, ih hps]
    rfl

theorem byteSlice_append_good {p : List Char} (hp : allOneByte p)
    (z : List Char) {a e : Nat} (ha : a ≤ e) (he : e ≤ p.length) :
    byteSlice (p ++ z) a e = some ((p.drop a).take (e - a)) := by
  rw [byteSlice, dropBytes_append_oneByte hp (by omega) z]
  have hall : allOneByte (p.drop a) := fun x hx => hp x (List.drop_subset a p hx)
  exact takeBytes_append_oneByte hall (by rw [List.length_drop]; omega) z

theorem byteSlice_append_bad {p : List Char} (hp : allOneByte p) {c : Char}
    (hc : 2 ≤ c.utf8Size) (z : List Char) {a : Nat} (ha : a ≤ p.length) :
    byteSlice (p ++ c :: z) a (p.length + 1) = none := by
  rw [byteSlice, dropBytes_append_oneByte hp ha (c :: z)]
  show takeBytes (p.drop a ++ c :: z) (p.length + 1 - a) = none
  have hall : allOneByte (p.drop a) := fun x hx => hp x (List.drop_subset a p hx)
  have h1 : p.length + 1 - a = (p.drop a).length + 1 := by
    rw [List.length_drop]
    omega
  rw [h1]
  exact takeBytes_multibyte hall hc z

theorem searchLoop_panic {s : List Char} (t : Trie Char Bool)
    (start mb : Nat) (rec : Nat → Memo → SRes) (P : Memo → Prop)
    (hbad : byteSlice s start (mb + 1) = none)
    (hgood : ∀ e, start < e → e ≤ mb → ∃ w, byteSlice s start e = some w)
    (hrec : ∀ e m, P m → start < e → e ≤ mb →
      rec e m = ⟨.error .panic, m, []⟩) :
    ∀ n a m, P m → start < a → a ≤ mb + 1 → mb + 1 < a + n →
      searchLoop t s start rec (List.range' a n) m = ⟨.error .panic, m, []⟩ := by
  intro n
  induction n with
  | zero =>
    intro a m _ h1 h2 h3
    omega
  | succ n ih =>
    intro a m hP h1 h2 h3
    rw [List.range'_succ, searchLoop]
    by_cases ha : a = mb + 1
    · subst ha
      rw [hbad]
    · have ha' : a ≤ mb := by omega
      obtain ⟨w, hw⟩ := hgood a h1 ha'
      simp only [hw]
      by_cases hhit : (t.get w).isSome = true
      · rw [if_pos hhit, hrec a m hP h1 ha']
      · rw [if_neg hhit]
        exact ih (a + 1) m hP (by omega) (by omega) (by omega)

theorem search_panic {s pre : List Char} {c : Char} {rest : List Char}
    (hdec : s = pre ++ c :: rest) (hpre : allOneByte pre)
    (hc : 2 ≤ c.utf8Size) (t : Trie Char Bool) :
    ∀ fuel start m, start ≤ pre.length → pre.length - start < fuel →
      (∀ i, i ≤ pre.length → m i = none) →
      search t s fuel start m = ⟨.error .panic, m, []⟩ := by
  have hlen_s : utf8Len s = pre.length + c.utf8Size + utf8Len rest := by
    rw [hdec, utf8Len_append, utf8Len_eq_length hpre, utf8Len]
    omega
  intro fuel
  induction fuel with
  | zero =>
    intro start m h1 h2 h3
    omega
  | succ fuel ih =>
    intro start m hstart hfuel hm
    have hne : start ≠ utf8Len s := by omega
    rw [search, if_neg hne]
    rw [hm start (by omega)]
    have hloop := searchLoop_panic t start pre.length
      (fun e mm => search t s fuel e mm)
      (fun mm => ∀ i, i ≤ pre.length → mm i = none)
      (hdec ▸ byteSlice_append_bad hpre hc rest hstart)
      (fun e he1 he2 => ⟨(pre.drop start).take (e - start),
        hdec ▸ byteSlice_append_good hpre (c :: rest) (by omega) he2⟩)
      (fun e mm hPmm he1 he2 => ih e mm (by omega) (by omega) hPmm)
      (utf8Len s - start) (start + 1) m hm (by omega) (by omega) (by omega)
    rw [hloop]

theorem word_break_panic {s : List Char} (D : List (List Char))
    (h : ¬ allOneByte s) : word_break s D = .error .panic := by
  obtain ⟨pre, c, rest, hdec, hpre, hc⟩ := exists_multibyte_split h
  have hlen_s : utf8Len s = pre.length + c.utf8Size + utf8Len rest := by
    rw [hdec, utf8Len_append, utf8Len_eq_length hpre, utf8Len]
    omega
  have := search_panic hdec hpre hc (buildTrie D) (utf8Len s + 1) 0
    (fun _ => none) (by omega) (by omega) (fun i _ => rfl)
  rw [word_break, wordBreakRun, this]

/-! ### The naive unmemoized search agrees with the memoized one -/

theorem naiveLoop_ascii {D : List (List Char)} {s : List Char}
    (h1 : allOneByte s) (start : Nat) (rec : Nat → Except Err Bool)
    (hrec : ∀ e, start < e → e ≤ s.length →
      ∃ b, rec e = .ok b ∧ (b = true ↔ Seg D (s.drop e))) :
    ∀ l, (∀ e ∈ l, start < e ∧ e ≤ s.length) →
      ∃ b, naiveLoop (buildTrie D) s start rec l = .ok b ∧
        (b = true ↔ ∃ e ∈ l, (s.drop start).take (e - start) ∈ D ∧
          Seg D (s.drop e)) := by
  intro l
  induction l with
  | nil => exact fun _ => ⟨false, rfl, by simp⟩
  | cons e l ih =>
    intro hl
    have he : start < e ∧ e ≤ s.length := hl e (List.mem_cons_self e l)
    have hslice := byteSlice_ascii h1 (Nat.le_of_lt he.1) he.2
    by_cases hwD : (s.drop start).take (e - start) ∈ D
    · obtain ⟨b1, hrec_eq, hb1⟩ := hrec e he.1 he.2
      cases b1 with
      | true =>
        refine ⟨true, ?_, ?_⟩
        · rw [naiveLoop]
          simp only [hslice, buildTrie_get, hwD, if_pos, Option.isSome_some,
            if_true, hrec_eq]
        · simp only [true_iff]
          exact ⟨e, List.mem_cons_self e l, hwD, hb1.mp rfl⟩
      | false =>
        obtain ⟨b2, hih, hb2⟩ := ih fun x hx => hl x (List.mem_cons_of_mem _ hx)
        refine ⟨b2, ?_, ?_⟩
        · rw [naiveLoop]
          simp only [hslice, buildTrie_get, hwD, if_pos, Option.isSome_some,
            if_true, hrec_eq, hih]
        · rw [hb2]
          constructor
          · rintro ⟨x, hx, hP⟩
            exact ⟨x, List.mem_cons_of_mem _ hx, hP⟩
          · rintro ⟨x, hx, hP⟩
            rcases List.mem_cons.mp hx with rfl | hx'
            · exact absurd (hb1.mpr hP.2) (by simp)
            · exact ⟨x, hx', hP⟩
    · obtain ⟨b2, hih, hb2⟩ := ih fun x hx => hl x (List.mem_cons_of_mem _ hx)
      refine ⟨b2, ?_, ?_⟩
      · rw [naiveLoop]
        simp only [hslice, buildTrie_get, hwD, if_neg, Option.isSome_none,
          Bool.false_eq_true, if_false, hih]
      · rw [hb2]
        constructor
        · rintro ⟨x, hx, hP⟩
          exact ⟨x, List.mem_cons_of_mem _ hx, hP⟩
        · rintro ⟨x, hx, hP⟩
          rcases List.mem_cons.mp hx with rfl | hx'
          · exact absurd hP.1 hwD
          · exact ⟨x, hx', hP⟩

theorem searchNaive_ascii {D : List (List Char)} {s : List Char}
    (h1 : allOneByte s) :
    ∀ fuel start, s.length - start ≤ fuel → start ≤ s.length →
      ∃ b, searchNaive (buildTrie D) s fuel start = .ok b ∧
        (b = true ↔ Seg D (s.drop start)) := by
  have hlen := utf8Len_eq_length h1
  intro fuel
  induction fuel with
  | zero =>
    intro start hfuel hstart
    have hbase : start = utf8Len s := by omega
    refine ⟨true, ?_, ?_⟩
    · rw [searchNaive, if_pos hbase]
    · rw [show start = s.length by omega, List.drop_length]
      exact ⟨fun _ => Seg.nil, fun _ => rfl⟩
  | succ fuel ih =>
    intro start hfuel hstart
    by_cases hbase : start = utf8Len s
    · refine ⟨true, ?_, ?_⟩
      · rw [searchNaive, if_pos hbase]
      · rw [show start = s.length by omega, List.drop_length]
        exact ⟨fun _ => Seg.nil, fun _ => rfl⟩
    · have hlt : start < s.length := by omega
      have hl : ∀ e ∈ List.range' (start + 1) (utf8Len s - start),
          start < e ∧ e ≤ s.length := by
        intro e hee
        have := mem_range'_iff.mp hee
        omega
      have hrec : ∀ e, start < e → e ≤ s.length →
          ∃ b, searchNaive (buildTrie D) s fuel e = .ok b ∧
            (b = true ↔ Seg D (s.drop e)) :=
        fun e he1 he2 => ih e (by omega) (by omega)
      obtain ⟨b, hloop, hb⟩ :=
        naiveLoop_ascii h1 start (fun e => searchNaive (buildTrie D) s fuel e)
          hrec (List.range' (start + 1) (utf8Len s - start)) hl
      refine ⟨b, ?_, ?_⟩
      · rw [searchNaive, if_neg hbase]
        exact hloop
      · rw [hb, seg_drop_iff hlt]
        constructor
        · rintro ⟨e, hee, hP⟩
          have := mem_range'_iff.mp hee
          exact ⟨e, by omega, by omega, hP.1, hP.2⟩
        · rintro ⟨e, he1, he2, hP1, hP2⟩
          exact ⟨e, mem_range'_iff.mpr ⟨by omega, by omega⟩, hP1, hP2⟩

theorem word_break_naive_ascii {s : List Char} (D : List (List Char))
    (h1 : allOneByte s) :
    ∃ b, word_break_naive s D = .ok b ∧ (b = true ↔ Seg D s) := by
  have hlen := utf8Len_eq_length h1
  obtain ⟨b, heq, hb⟩ := searchNaive_ascii h1 (utf8Len s + 1) 0 (by omega)
    (by omega)
  refine ⟨b, ?_, by simpa using hb⟩
  show searchNaive (buildTrie D) s (utf8Len s + 1) 0 = .ok b
  exact heq

theorem naiveLoop_panic {s : List Char} (t : Trie Char Bool)
    (start mb : Nat) (rec : Nat → Except Err Bool)
    (hbad : byteSlice s start (mb + 1) = none)
    (hgood : ∀ e, start < e → e ≤ mb → ∃ w, byteSlice s start e = some w)
    (hrec : ∀ e, start < e → e ≤ mb → rec e = .error .panic) :
    ∀ n a, start < a → a ≤ mb + 1 → mb + 1 < a + n →
      naiveLoop t s start rec (List.range' a n) = .error .panic := by
  intro n
  induction n with
  | zero =>
    intro a h1 h2 h3
    omega
  | succ n ih =>
    intro a h1 h2 h3
    rw [List.range'_succ, naiveLoop]
    by_cases ha : a = mb + 1
    · subst ha
      rw [hbad]
    · have ha' : a ≤ mb := by omega
      obtain ⟨w, hw⟩ := hgood a h1 ha'
      simp only [hw]
      by_cases hhit : (t.get w).isSome = true
      · rw [if_pos hhit, hrec a h1 ha']
      · rw [if_neg hhit]
        exact ih (a + 1) (by omega) (by omega) (by omega)

theorem searchNaive_panic {s pre : List Char} {c : Char} {rest : List Char}
    (hdec : s = pre ++ c :: rest) (hpre : allOneByte pre)
    (hc : 2 ≤ c.utf8Size) (t : Trie Char Bool) :
    ∀ fuel start, start ≤ pre.length → pre.length - start < fuel →
      searchNaive t s fuel start = .error .panic := by
  have hlen_s : utf8Len s = pre.length + c.utf8Size + utf8Len rest := by
    rw [hdec, utf8Len_append, utf8Len_eq_length hpre, utf8Len]
    omega
  intro fuel
  induction fuel with
  | zero =>
    intro start h1 h2
    omega
  | succ fuel ih =>
    intro start hstart hfuel
    have hne : start ≠ utf8Len s := by omega
    rw [searchNaive, if_neg hne]
    exact naiveLoop_panic t start pre.length
      (fun e => searchNaive t s fuel e)
      (hdec ▸ byteSlice_append_bad hpre hc rest hstart)
      (fun e he1 he2 => ⟨(pre.drop start).take (e - start),
        hdec ▸ byteSlice_append_good hpre (c :: rest) (by omega) he2⟩)
      (fun e he1 he2 => ih e (by omega) (by omega))
      (utf8Len s - start) (start + 1) (by omega) (by omega) (by omega)

theorem word_break_naive_panic {s : List Char} (D : List (List Char))
    (h : ¬ allOneByte s) : word_break_naive s D = .error .panic := by
  obtain ⟨pre, c, rest, hdec, hpre, hc⟩ := exists_multibyte_split h
  have hlen_s : utf8Len s = pre.length + c.utf8Size + utf8Len rest := by
    rw [hdec, utf8Len_append, utf8Len_eq_length hpre, utf8Len]
    omega
  have := searchNaive_panic hdec hpre hc (buildTrie D) (utf8Len s + 1) 0
    (by omega) (by omega)
  show searchNaive (buildTrie D) s (utf8Len s + 1) 0 = .error .panic
  exact this

/-! ### The memo table is written at most once per slot -/

/-- Invariant of one `search` call started at a position `≥ lo` with memo
table `m`: the ghost write list has no duplicates, every written slot is at
index `≥ lo`, was unresolved in `m`, and is resolved afterwards, and every
other slot is untouched. -/
def WInv (lo : Nat) (m : Memo) (r : SRes) : Prop :=
  r.writes.Nodup ∧
  (∀ i ∈ r.writes, lo ≤ i ∧ m i = none ∧ (r.memo i).isSome = true) ∧
  (∀ i, i ∉ r.writes → r.memo i = m i)

theorem searchLoop_writes (t : Trie Char Bool) (s : List Char) (start : Nat)
    (rec : Nat → Memo → SRes)
    (hrec : ∀ e m, start < e → WInv e m (rec e m)) :
    ∀ l m, (∀ e ∈ l, start < e) →
      WInv (start + 1) m (searchLoop t s start rec l m) := by
  intro l
  induction l with
  | nil =>
    intro m _
    simp only [searchLoop]
    exact ⟨List.nodup_nil, by simp, fun i _ => rfl⟩
  | cons e l ih =>
    intro m hl
    have hes : start < e := hl e (List.mem_cons_self e l)
    cases hslice : byteSlice s start e with
    | none =>
      simp only [searchLoop, hslice]
      exact ⟨List.nodup_nil, by simp, fun i _ => rfl⟩
    | some w =>
      simp only [searchLoop, hslice]
      by_cases hhit : (t.get w).isSome = true
      · rw [if_pos hhit]
        have hr1 := hrec e m hes
        rcases hr1eq : rec e m with ⟨res1, m1, ws1⟩
        rw [hr1eq] at hr1
        obtain ⟨hnd1, hw1, ho1⟩ := hr1
        dsimp only at hnd1 hw1 ho1
        cases res1 with
        | ok b =>
          cases b with
          | true =>
            simp only [hr1eq]
            refine ⟨hnd1, fun i hi => ?_, ho1⟩
            obtain ⟨hle, hnone, hsome⟩ := hw1 i hi
            exact ⟨by omega, hnone, hsome⟩
          | false =>
            simp only [hr1eq]
            have hih := ih m1 fun x hx => hl x (List.mem_cons_of_mem _ hx)
            rcases h2eq : searchLoop t s start rec l m1 with ⟨res2, m2, ws2⟩
            rw [h2eq] at hih
            simp only [h2eq]
            obtain ⟨hnd2, hw2, ho2⟩ := hih
            dsimp only at hnd2 hw2 ho2
            have hdisj : ws1.Disjoint ws2 := by
              intro i hi1 hi2
              have h1 := (hw1 i hi1).2.2
              have h2 := (hw2 i hi2).2.1
              rw [h2] at h1
              simp at h1
            refine ⟨hnd1.append hnd2 hdisj, ?_, ?_⟩
            · dsimp only
              intro i hi
              rcases List.mem_append.mp hi with hi1 | hi2
              · obtain ⟨hle, hnone, hsome⟩ := hw1 i hi1
                refine ⟨by omega, hnone, ?_⟩
                rw [ho2 i fun hi2 => hdisj hi1 hi2]
                exact hsome
              · obtain ⟨hle, hnone, hsome⟩ := hw2 i hi2
                have hi1 : i ∉ ws1 := fun hi1 => hdisj hi1 hi2
                refine ⟨hle, ?_, hsome⟩
                rw [← ho1 i hi1]
                exact hnone
            · dsimp only
              intro i hi
              rw [ho2 i fun h => hi (List.mem_append.mpr (Or.inr h)),
                ho1 i fun h => hi (List.mem_append.mpr (Or.inl h))]
        | error err =>
          simp only [hr1eq]
          refine ⟨hnd1, fun i hi => ?_, ho1⟩
          obtain ⟨hle, hnone, hsome⟩ := hw1 i hi
          exact ⟨by omega, hnone, hsome⟩
      · rw [if_neg hhit]
        exact ih m fun x hx => hl x (List.mem_cons_of_mem _ hx)

theorem search_writes (t : Trie Char Bool) (s : List Char) :
    ∀ fuel start m, WInv start m (search t s fuel start m) := by
  intro fuel
  induction fuel with
  | zero =>
    intro start m
    rw [search]
    by_cases hbase : start = utf8Len s
    · rw [if_pos hbase]
      exact ⟨List.nodup_nil, by simp, fun i _ => rfl⟩
    · rw [if_neg hbase]
      cases hmemo : m start with
      | some res => exact ⟨List.nodup_nil, by simp, fun i _ => rfl⟩
      | none => exact ⟨List.nodup_nil, by simp, fun i _ => rfl⟩
  | succ fuel ih =>
    intro start m
    rw [search]
    by_cases hbase : start = utf8Len s
    · rw [if_pos hbase]
      exact ⟨List.nodup_nil, by simp, fun i _ => rfl⟩
    · rw [if_neg hbase]
      cases hmemo : m start with
      | some res => exact ⟨List.nodup_nil, by simp, fun i _ => rfl⟩
      | none =>
        have hloop := searchLoop_writes t s start
          (fun e mm => search t s fuel e mm) (fun e mm _ => ih e mm)
          (List.range' (start + 1) (utf8Len s - start)) m
          (fun e hee => by
            have := mem_range'_iff.mp hee
            omega)
        rcases hleq : searchLoop t s start (fun e mm => search t s fuel e mm)
            (List.range' (start + 1) (utf8Len s - start)) m
          with ⟨res1, m1, ws1⟩
        rw [hleq] at hloop
        obtain ⟨hnd1, hw1, ho1⟩ := hloop
        dsimp only at hnd1 hw1 ho1
        have hstart_not : start ∉ ws1 := fun h => by
          have := (hw1 start h).1
          omega
        cases res1 with
        | ok b =>
          cases b with
          | true =>
            simp only [hleq]
            refine ⟨List.nodup_cons.mpr ⟨hstart_not, hnd1⟩, ?_, ?_⟩
            · intro i hi
              rcases List.mem_cons.mp hi with rfl | hi1
              · refine ⟨Nat.le_refl i, hmemo, ?_⟩
                show (if i = i then some true else m1 i).isSome = true
                rw [if_pos rfl]
                rfl
              · obtain ⟨hle, hnone, hsome⟩ := hw1 i hi1
                refine ⟨by omega, hnone, ?_⟩
                show (if i = start then some true else m1 i).isSome = true
                rw [if_neg (by omega)]
                exact hsome
            · intro i hi
              have hi1 : i ≠ start := fun h => hi (h ▸ List.mem_cons_self _ _)
              have hi2 : i ∉ ws1 := fun h => hi (List.mem_cons_of_mem _ h)
              show (if i = start then some true else m1 i) = m i
              rw [if_neg hi1]
              exact ho1 i hi2
          | false =>
            simp only [hleq]
            refine ⟨List.nodup_cons.mpr ⟨hstart_not, hnd1⟩, ?_, ?_⟩
            · intro i hi
              rcases List.mem_cons.mp hi with rfl | hi1
              · refine ⟨Nat.le_refl i, hmemo, ?_⟩
                show (if i = i then some false else m1 i).isSome = true
                rw [if_pos rfl]
                rfl
              · obtain ⟨hle, hnone, hsome⟩ := hw1 i hi1
                refine ⟨by omega, hnone, ?_⟩
                show (if i = start then some false else m1 i).isSome = true
                rw [if_neg (by omega)]
                exact hsome
            · intro i hi
              have hi1 : i ≠ start := fun h => hi (h ▸ List.mem_cons_self _ _)
              have hi2 : i ∉ ws1 := fun h => hi (List.mem_cons_of_mem _ h)
              show (if i = start then some false else m1 i) = m i
              rw [if_neg hi1]
              exact ho1 i hi2
        | error err =>
          simp only [hleq]
          refine ⟨hnd1, fun i hi => ?_, ho1⟩
          obtain ⟨hle, hnone, hsome⟩ := hw1 i hi
          exact ⟨by omega, hnone, hsome⟩

/-! ### The result depends on the trie only through lookups of
non-empty keys -/

theorem searchLoop_congr (t₁ t₂ : Trie Char Bool) (s : List Char)
    (start : Nat) (hg : ∀ w, w ≠ [] → t₁.get w = t₂.get w)
    (rec₁ rec₂ : Nat → Memo → SRes)
    (hrec : ∀ e m, rec₁ e m = rec₂ e m) :
    ∀ l m, (∀ e ∈ l, start < e) →
      searchLoop t₁ s start rec₁ l m = searchLoop t₂ s start rec₂ l m := by
  intro l
  induction l with
  | nil => intro m _; rfl
  | cons e l ih =>
    intro m hl
    have hes : start < e := hl e (List.mem_cons_self e l)
    cases hslice : byteSlice s start e with
    | none => simp only [searchLoop, hslice]
    | some w =>
      have hwne : w ≠ [] := byteSlice_ne_nil hslice hes
      have hgw : t₁.get w = t₂.get w := hg w hwne
      simp only [searchLoop, hslice, hgw, hrec]
      by_cases hhit : (t₂.get w).isSome = true
      · rw [if_pos hhit, if_pos hhit]
        rcases hr2 : rec₂ e m with ⟨res2, m2, ws2⟩
        cases res2 with
        | ok b =>
          cases b with
          | true => simp only [hr2]
          | false =>
            simp only [hr2]
            rw [ih m2 fun x hx => hl x (List.mem_cons_of_mem _ hx)]
        | error err => simp only [hr2]
      · rw [if_neg hhit, if_neg hhit]
        exact ih m fun x hx => hl x (List.mem_cons_of_mem _ hx)

theorem search_congr (t₁ t₂ : Trie Char Bool) (s : List Char)
    (hg : ∀ w, w ≠ [] → t₁.get w = t₂.get w) :
    ∀ fuel start m, search t₁ s fuel start m = search t₂ s fuel start m := by
  intro fuel
  induction fuel with
  | zero => intro start m; rfl
  | succ fuel ih =>
    intro start m
    rw [search, search]
    by_cases hbase : start = utf8Len s
    · rw [if_pos hbase, if_pos hbase]
    · rw [if_neg hbase, if_neg hbase]
      cases hmemo : m start with
      | some res => simp only [hmemo]
      | none =>
        simp only [hmemo]
        rw [searchLoop_congr t₁ t₂ s start hg _ _ (fun e mm => ih e mm) _ m
          (fun e hee => by
            have := mem_range'_iff.mp hee
            omega)]

theorem wordBreakRun_congr (s : List Char) {D D' : List (List Char)}
    (hg : ∀ w, w ≠ [] → (buildTrie D).get w = (buildTrie D').get w) :
    wordBreakRun s D = wordBreakRun s D' := by
  rw [wordBreakRun, wordBreakRun,
    search_congr (buildTrie D) (buildTrie D') s hg]

/-! ### The claims -/

/-- C1, counterexample: the claim "`word_break(s, D)` returns true iff `s`
partitions into ONE OR MORE dictionary words" fails at `s = ""`, `D = {}`:
the function returns `true`, but the empty string admits no partition into
one or more words of an empty dictionary. -/
theorem wordBreak_empty_no_onePlus :
    word_break [] [] = .ok true ∧ ¬ SegOnePlus ([] : List (List Char)) [] := by
  refine ⟨rfl, ?_⟩
  rintro ⟨parts, hne, hmem, hflat⟩
  match parts, hne with
  | p :: rest, _ =>
    exact absurd (hmem p (List.mem_cons_self p rest)) (List.not_mem_nil p)

/-- C1, amended: for every string all of whose characters are single UTF-8
bytes (so that the byte-index slicing of the source never panics) and every
dictionary `D`, `word_break(s, D)` returns `true` iff `s` is empty or `s`
can be partitioned into a non-overlapping, order-preserving, contiguous
sequence of one or more substrings, each equal to some entry of `D`,
covering every character of `s`. -/
theorem wordBreak_iff_partition {s : List Char} (D : List (List Char))
    (h1 : allOneByte s) :
    word_break s D = .ok true ↔ (s = [] ∨ SegOnePlus D s) := by
  obtain ⟨b, heq, hb⟩ := word_break_ascii D h1
  rw [heq]
  constructor
  · intro hok
    exact seg_iff_onePlus.mp (hb.mp (Except.ok.inj hok))
  · intro hor
    rw [hb.mpr (seg_iff_onePlus.mpr hor)]

/-- C1, witness for the amended claim at `s = "ab"`, `D = {"a", "b"}`. -/
theorem wordBreak_iff_partition_witness :
    allOneByte ['a', 'b'] ∧
      (word_break ['a', 'b'] [['a'], ['b']] = .ok true ↔
        (['a', 'b'] = [] ∨ SegOnePlus [['a'], ['b']] ['a', 'b'])) :=
  ⟨by decide, wordBreak_iff_partition [['a'], ['b']] (by decide)⟩

/-- C2: the totality claim fails on the code: `word_break("é", {})` slices
`s[0..1]` in its candidate loop, and byte 1 is not a character boundary of
the two-byte character `é`, so the Rust source panics instead of returning
a boolean.  The embedding evaluates to the panic outcome. -/
theorem wordBreak_unicode_panic :
    word_break ['é'] [] = .error .panic := by
  rfl

/-- C3: the empty string is segmentable for every dictionary: `search`
starts at position `0 = s.len()` and returns `true` from its base case
without consulting the trie. -/
theorem wordBreak_empty_string (D : List (List Char)) :
    word_break [] D = .ok true := by
  rfl

/-- C4: the claim "`word_break(s, {})` returns false for every non-empty
`s`" fails on the code for non-ASCII `s`: `word_break("日", {})` panics at
the first byte slice instead of returning `false`.  (For strings of
single-byte characters the code does return `false`, by
`wordBreak_iff_partition`.) -/
theorem wordBreak_kanji_empty_dict_panic :
    word_break ['日'] [] = .error .panic := by
  rfl

/-- C5: the claim "`w ∈ D` implies `word_break(w, D)` returns true" fails
on the code for non-ASCII `w`: with `w = "é" ∈ D`, the candidate loop
slices `s[0..1]` inside the two-byte character before it can test the full
word, and panics instead of returning `true`. -/
theorem wordBreak_member_word_panic :
    word_break ['é'] [['é']] = .error .panic := by
  rfl

/-- C6: growing the dictionary preserves a `true` result: if
`word_break(s, D)` returns `true` and every word of `D` is a word of `D'`,
then `word_break(s, D')` returns `true`. -/
theorem wordBreak_monotone {s : List Char} {D D' : List (List Char)}
    (hsub : ∀ w ∈ D, w ∈ D') (h : word_break s D = .ok true) :
    word_break s D' = .ok true := by
  by_cases h1 : allOneByte s
  · obtain ⟨b, heq, hb⟩ := word_break_ascii D h1
    rw [heq] at h
    have hseg : Seg D s := hb.mp (Except.ok.inj h)
    obtain ⟨b', heq', hb'⟩ := word_break_ascii D' h1
    rw [heq', hb'.mpr (seg_monotone hsub hseg)]
  · rw [word_break_panic D h1] at h
    exact absurd h (by simp)

/-- C6, witness at `s = "a"`, `D = {"a"} ⊆ D' = {"a", "b"}`. -/
theorem wordBreak_monotone_witness :
    (∀ w ∈ [['a']], w ∈ [['a'], ['b']]) ∧
      word_break ['a'] [['a']] = .ok true ∧
      word_break ['a'] [['a'], ['b']] = .ok true :=
  ⟨by decide, rfl,
    @wordBreak_monotone ['a'] [['a']] [['a'], ['b']] (by decide) rfl⟩

/-- C7: the memoized search and the naive unmemoized re-implementation of
the same search agree on every input — including the panic behaviour on
strings with multi-byte characters. -/
theorem wordBreak_eq_naive (s : List Char) (D : List (List Char)) :
    word_break s D = word_break_naive s D := by
  by_cases h1 : allOneByte s
  · obtain ⟨b, heq, hb⟩ := word_break_ascii D h1
    obtain ⟨b', heq', hb'⟩ := word_break_naive_ascii D h1
    rw [heq, heq']
    have hbb : b = b' := by
      cases b <;> cases b' <;> simp_all
    rw [hbb]
  · rw [word_break_panic D h1, word_break_naive_panic D h1]

/-- C8: within a single top-level call, the memo table starts with every
slot unresolved (`wordBreakRun` passes the all-`none` table), the ghost
list of written slots has no duplicates (each slot is written at most
once), every written slot is resolved in the final table, and every slot
never written still holds `none` — so a slot, once set, is never
changed. -/
theorem wordBreakRun_memo_write_once (s : List Char) (D : List (List Char)) :
    (wordBreakRun s D).writes.Nodup ∧
      (∀ i ∈ (wordBreakRun s D).writes,
        ((wordBreakRun s D).memo i).isSome = true) ∧
      (∀ i, i ∉ (wordBreakRun s D).writes → (wordBreakRun s D).memo i = none) := by
  obtain ⟨h1, h2, h3⟩ :=
    search_writes (buildTrie D) s (utf8Len s + 1) 0 (fun _ => none)
  exact ⟨h1, fun i hi => (h2 i hi).2.2, fun i hi => h3 i hi⟩

/-- C9: the result depends only on which words are in the dictionary, not
on their order or multiplicity: dictionaries with the same members give
identical results. -/
theorem wordBreak_set_semantics (s : List Char) {D D' : List (List Char)}
    (h : ∀ w : List Char, w ∈ D ↔ w ∈ D') :
    word_break s D = word_break s D' := by
  have hg : ∀ w, w ≠ [] → (buildTrie D).get w = (buildTrie D').get w := by
    intro w _
    rw [buildTrie_get, buildTrie_get]
    by_cases hD : w ∈ D
    · rw [if_pos hD, if_pos ((h w).mp hD)]
    · rw [if_neg hD, if_neg (fun hD' => hD ((h w).mpr hD'))]
  rw [word_break, word_break, wordBreakRun_congr s hg]

/-- C9, witness: `{"a"}` versus `{"a", "a"}`. -/
theorem wordBreak_set_semantics_witness :
    (∀ w : List Char, w ∈ [['a']] ↔ w ∈ [['a'], ['a']]) ∧
      word_break ['a'] [['a']] = word_break ['a'] [['a'], ['a']] :=
  ⟨fun w => by simp, wordBreak_set_semantics ['a'] (fun w => by simp)⟩

/-- C10: adding the empty string to the dictionary never changes the
result: every trie lookup of the search is on a slice `s[start..end]` with
`end > start`, which is a non-empty key, and the base case at the end of
the string is reached without consulting the dictionary. -/
theorem wordBreak_empty_word_irrelevant (s : List Char)
    (D : List (List Char)) :
    word_break s ([] :: D) = word_break s D := by
  have hg : ∀ w, w ≠ [] →
      (buildTrie ([] :: D)).get w = (buildTrie D).get w := by
    intro w hw
    rw [buildTrie_get, buildTrie_get]
    by_cases hD : w ∈ D
    · rw [if_pos (List.mem_cons_of_mem _ hD), if_pos hD]
    · rw [if_neg ?_, if_neg hD]
      intro hmem
      rcases List.mem_cons.mp hmem with h0 | h0
      · exact hw h0
      · exact hD h0
  rw [word_break, word_break, wordBreakRun_congr s hg]

end RustAlgorithms
